import Mathlib

set_option maxHeartbeats 1000000

/-!
Verification of the travesty dispatch/traversal library.

The definitions below are shallow embeddings of the Python sources:
`src/travesty/cantrips/dispatcher.py` (list merge, dispatcher resolution),
`src/travesty/base.py` / `src/travesty/dispatch_graph.py` (the operation
registries and wrapper pass-through), `src/travesty/mapping.py`
(SchemaMapping policies), and `src/travesty/document/docset.py` /
`src/travesty/document/document.py` (documents and docsets).
-/

/-! ## Merge of resolution orders (`merge` in cantrips/dispatcher.py) -/

variable {α : Type} [DecidableEq α]

/-- Total number of elements across all lists: the measure that the
`while lists:` loop of `_merge` decreases. -/
def totalLen (lists : List (List α)) : Nat :=
  (lists.map List.length).sum

/-- Number of occurrences of `x` among the tails (positions past the head)
of the lists.  This is the count that the Python `Counter` named `tails`
holds for `x` throughout `_merge`. -/
def tailsCnt (lists : List (List α)) (x : α) : Nat :=
  (lists.map fun l => l.tail.count x).sum

/-- The initial `tails` Counter built by `_merge`
(`tails.update(list[1:])` for every list); values are Python ints. -/
def tailsInit (lists : List (List α)) : α → Int :=
  fun x => (tailsCnt lists x : Int)

/-- `tails.subtract((b,))`. -/
def subtractOne (t : α → Int) (b : α) : α → Int :=
  fun x => if x = b then t x - 1 else t x

/-- The selection loop of `_merge_one`: the head `h` of the first nonempty
list with `not tails[h]` (i.e. `tails h = 0`); `none` when the loop falls
through to `raise ValueError`. -/
def findHead (tails : α → Int) : List (List α) → Option α
  | [] => none
  | [] :: rest => findHead tails rest
  | (a :: _) :: rest => if tails a = 0 then some a else findHead tails rest

/-- The list part of `_merge_one`'s while loop: remove empty lists, pop `h`
off every list whose head is `h`, and remove lists that become empty. -/
def popLists (h : α) : List (List α) → List (List α)
  | [] => []
  | [] :: rest => popLists h rest
  | (a :: l) :: rest =>
    if a = h then
      match l with
      | [] => popLists h rest
      | b :: l' => (b :: l') :: popLists h rest
    else (a :: l) :: popLists h rest

/-- The Counter part of `_merge_one`'s while loop:
`tails.subtract((list[0],))` for every list that `h` is popped from and
that stays nonempty. -/
def popTails (h : α) (t : α → Int) : List (List α) → (α → Int)
  | [] => t
  | [] :: rest => popTails h t rest
  | (a :: l) :: rest =>
    if a = h then
      match l with
      | [] => popTails h t rest
      | b :: _ => popTails h (subtractOne t b) rest
    else popTails h t rest

/-- `_merge`: repeatedly run `_merge_one` until no lists remain; the
`ValueError` raised when no candidate head exists becomes `.error`. -/
def mergeAux (lists : List (List α)) (tails : α → Int) : Except String (List α) :=
  match lists with
  | [] => .ok []
  | l0 :: rest =>
    match hf : findHead tails (l0 :: rest) with
    | none => .error "Cannot create a consistent merge order for lists."
    | some h =>
      (mergeAux (popLists h (l0 :: rest)) (popTails h tails (l0 :: rest))).map (h :: ·)
termination_by totalLen lists
decreasing_by
  have hle : ∀ (g : α) (ls : List (List α)), totalLen (popLists g ls) ≤ totalLen ls := by
    intro g ls
    induction ls with
    | nil => simp [popLists]
    | cons a rest ih =>
      cases a with
      | nil =>
        simp only [popLists, totalLen, List.map_cons, List.sum_cons, List.length_cons, List.length_nil] at *
        omega
      | cons x l =>
        by_cases hx : x = g
        · subst hx
          cases l with
          | nil =>
            simp only [popLists, if_pos rfl, eq_self_iff_true, if_true, totalLen,
              List.map_cons, List.sum_cons, List.length_cons, List.length_nil] at *
            omega
          | cons b l' =>
            simp only [popLists, if_pos rfl, eq_self_iff_true, if_true, totalLen,
              List.map_cons, List.sum_cons, List.length_cons, List.length_nil] at *
            omega
        · simp only [popLists, if_neg hx, totalLen, List.map_cons, List.sum_cons, List.length_cons, List.length_nil] at *
          omega
  have hlt : ∀ (t : α → Int) (ls : List (List α)) (g : α), findHead t ls = some g →
      totalLen (popLists g ls) < totalLen ls := by
    intro t ls
    induction ls with
    | nil => intro g hg; simp [findHead] at hg
    | cons a rest ih =>
      intro g hg
      cases a with
      | nil =>
        simp only [findHead] at hg
        have := ih g hg
        simp only [popLists, totalLen, List.map_cons, List.sum_cons, List.length_cons, List.length_nil] at *
        omega
      | cons x l =>
        simp only [findHead] at hg
        by_cases hx : t x = 0
        · rw [if_pos hx] at hg
          have hgx : x = g := Option.some.inj hg
          subst hgx
          have h2 := hle x rest
          cases l with
          | nil =>
            simp only [popLists, if_pos rfl, eq_self_iff_true, if_true, totalLen,
              List.map_cons, List.sum_cons, List.length_cons, List.length_nil] at *
            omega
          | cons b l' =>
            simp only [popLists, if_pos rfl, eq_self_iff_true, if_true, totalLen,
              List.map_cons, List.sum_cons, List.length_cons, List.length_nil] at *
            omega
        · rw [if_neg hx] at hg
          have := ih g hg
          by_cases hxg : x = g
          · subst hxg
            have h2 := hle x rest
            cases l with
            | nil =>
              simp only [popLists, if_pos rfl, eq_self_iff_true, if_true, totalLen,
                List.map_cons, List.sum_cons, List.length_cons, List.length_nil] at *
              omega
            | cons b l' =>
              simp only [popLists, if_pos rfl, eq_self_iff_true, if_true, totalLen,
                List.map_cons, List.sum_cons, List.length_cons, List.length_nil] at *
              omega
          · simp only [popLists, if_neg hxg, totalLen, List.map_cons, List.sum_cons, List.length_cons, List.length_nil] at *
            omega
  exact hlt tails (l0 :: rest) h hf

/-- `merge(lists)`: run `_merge` starting from the freshly initialized
`tails` Counter. -/
def merge (lists : List (List α)) : Except String (List α) :=
  mergeAux lists (tailsInit lists)

/-- Claim-worded selection rule (spec, merge algorithm): the head of the
first remaining list whose head element does not appear in the tail of any
*other* remaining list.  `pre` holds the lists already scanned past. -/
def claimHead : List (List α) → List (List α) → Option α
  | _, [] => none
  | pre, [] :: rest => claimHead (pre ++ [[]]) rest
  | pre, (a :: l) :: rest =>
    if (pre ++ rest).all (fun o => decide (a ∉ o.tail)) then some a
    else claimHead (pre ++ [a :: l]) rest

/-! ## Dispatcher resolution (`_BaseDispatcher` / `Dispatcher`) -/

variable {κ φ ν V : Type} [DecidableEq κ]

/-- One `Dispatcher`'s own state: the key→handler table `mapping`, the
optional default `_default`, the optional key function `keyfn` (Python
`None` means "use `type(val).__mro__`"), and the stored `dispatch_mro`.
Registries refer to each other by numeric identity (`Nat`), mirroring
Python object identity; a world maps each identity to its state. -/
structure DispData (κ φ ν : Type) where
  mapping : κ → Option φ
  dflt : Option φ
  keyfn : Option (ν → List κ)
  mro : List Nat

def World (κ φ ν : Type) := Nat → DispData κ φ ν

/-- `Dispatcher._to_keys`: apply `keyfn` when set, else the ancestry chain
`type(val).__mro__`, supplied here as `tm`. -/
def toKeys (tm : ν → List κ) (d : DispData κ φ ν) (v : ν) : List κ :=
  match d.keyfn with
  | some f => f v
  | none => tm v

/-- A dispatch target: a plain value, or a `SuperMarker(key, val)` token
(`key` is always a truthy Python value in use, so the `if start_key:`
test in `dispatch` is modeled by the `superM` case). -/
inductive DTarget (κ ν : Type) where
  | plain (v : ν)
  | superM (key : κ) (v : ν)

/-- `keys[keys.index(start_key)+1:]`: everything after the first occurrence
of `k` (cf. `slice_at`). -/
def sliceAfter (keys : List κ) (k : κ) : List κ :=
  (keys.dropWhile (fun x => x ≠ k)).drop 1

/-- `_BaseDispatcher._dispatch(key)`: scan `dispatch_mro` in order and
return the first registry's own entry for `key`. -/
def dispatchKey (w : World κ φ ν) (mro : List Nat) (k : κ) : Option φ :=
  mro.findSome? (fun r => (w r).mapping k)

/-- `_BaseDispatcher.get_default`: the `_default` of the first registry in
`dispatch_mro` that has one. -/
def getDefault (w : World κ φ ν) (mro : List Nat) : Option φ :=
  mro.findSome? (fun r => (w r).dflt)

/-- `_BaseDispatcher.dispatch(val)`: unwrap a SuperMarker, compute the key
list, truncate it past `start_key` when present, try `_dispatch` on each
key in order, and fall back on `get_default`. -/
def dispatch (tm : ν → List κ) (w : World κ φ ν) (d : Nat) (t : DTarget κ ν) :
    Option φ :=
  let sv : Option κ × ν :=
    match t with
    | .plain v => (none, v)
    | .superM k v => (some k, v)
  let keys0 := toKeys tm (w d) sv.2
  let keys :=
    match sv.1 with
    | none => keys0
    | some k => sliceAfter keys0 k
  match keys.findSome? (fun k => dispatchKey w (w d).mro k) with
  | some f => some f
  | none => getDefault w (w d).mro

/-- `Dispatcher.__init__`'s `dispatch_mro`:
`(self,) + tuple(merge(p.dispatch_mro for p in parents))` when there are
parents, `(self,)` otherwise; construction fails when `merge` does. -/
def initMro (selfId : Nat) (parentMros : List (List Nat)) :
    Except String (List Nat) :=
  match parentMros with
  | [] => .ok [selfId]
  | _ :: _ => (merge parentMros).map (selfId :: ·)

/-- `Dispatcher.register(keys, fn)`: store `fn` under every key in `keys`
in registry `d`'s own table. -/
def register (w : World κ φ ν) (d : Nat) (keys : List κ) (fn : φ) :
    World κ φ ν :=
  fun r =>
    if r = d then
      { w d with mapping := fun k => if k ∈ keys then some fn else (w d).mapping k }
    else w r

/-- A sequence of `register` calls against one registry. -/
def applyRegs (w : World κ φ ν) (d : Nat) : List (List κ × φ) → World κ φ ν
  | [] => w
  | (keys, fn) :: rest => applyRegs (register w d keys fn) d rest

/-- `Dispatcher.sub()`: `Dispatcher(parents=[self], keyfn=self.keyfn)` —
a fresh registry (identity `fresh`) with an empty table, no default, the
parent's key function, and the parent as sole parent. -/
def subDisp (w : World κ φ ν) (fresh parent : Nat) :
    Except String (World κ φ ν) :=
  (initMro fresh [(w parent).mro]).map (fun m =>
    fun r =>
      if r = fresh then
        { mapping := fun _ => none, dflt := none,
          keyfn := (w parent).keyfn, mro := m }
      else w r)

/-- Claim-worded resolution (spec, registry resolution): scan the remaining
keys in order; at the first key for which some registry in the merge order
has an own entry, return the entry of the first such registry; if no key
matches anywhere, fall back on the default of the first registry in merge
order that declares one. -/
def resolveSpec (w : World κ φ ν) (mro : List Nat) : List κ → Option φ
  | [] => getDefault w mro
  | k :: rest =>
    if mro.any (fun r => ((w r).mapping k).isSome) then dispatchKey w mro k
    else resolveSpec w mro rest

/-- Sample world for the dispatcher claims: registry 0 is a root (merge
order `[0]`, an entry for key 10, a default), registry 1 extends it (merge
order `[1, 0]`, an entry for key 11). -/
def exWorld : World Nat Nat Nat := fun r =>
  if r = 0 then ⟨fun k => if k = 10 then some 100 else none, some 999, none, [0]⟩
  else if r = 1 then ⟨fun k => if k = 11 then some 101 else none, none, none, [1, 0]⟩
  else ⟨fun _ => none, none, none, [r]⟩

/-- The world after `exWorld`'s registry 1 is derived into a fresh
registry 2 (`subDisp exWorld 2 1`). -/
def exWorld1 : World Nat Nat Nat := fun r =>
  if r = 2 then ⟨fun _ => none, none, (exWorld 1).keyfn, [2, 1, 0]⟩
  else exWorld r

/-! ## Operation registries over marker graphs (base.py, dispatch_graph.py) -/

/-- A marker-graph node: its own kind tag plus, for `Wrapper` markers, the
wrapped inner marker (`.marker` in base.py).  Kind tags are `Nat`. -/
inductive MarkerT where
  | node (kind : Nat) (inner : Option MarkerT)

def MarkerT.kind : MarkerT → Nat
  | .node k _ => k

/-- `Wrapper.marker`: the wrapped inner marker (`none` for non-wrappers). -/
def MarkerT.innerM : MarkerT → Option MarkerT
  | .node _ i => i

/-- A graph-dispatcher handler: it receives the recursion continuation
(standing for the dispatch-graph node, through which `dispgraph.inner` and
friends re-enter evaluation), the marker at the current node, and the
value.  `none` models a raised error or exhausted fuel. -/
def OpHandler (V R : Type) : Type :=
  (MarkerT → V → Option R) → MarkerT → V → Option R

/-- One step of `DispatchGraph.__call__`: resolve a handler for the marker
through the operation registry `d` (keys are the marker type's ancestry
chain `kindMro`, since graph dispatchers leave `keyfn` unset), then run it,
handing it evaluation at the next-lower fuel as the recursion continuation;
`none` when no handler resolves (`NotImplementedError`) or fuel is gone. -/
def evalOp (kindMro : Nat → List Nat) (w : World Nat (OpHandler V R) MarkerT)
    (d : Nat) : Nat → MarkerT → V → Option R
  | 0, _, _ => none
  | fuel + 1, m, v =>
    match dispatch (fun mk => kindMro mk.kind) w d (.plain m) with
    | some h => h (evalOp kindMro w d fuel) m v
    | none => none

/-- `pass_through_wrapper` (base.py): `return dispgraph.inner(*args)`,
i.e. apply the same operation to the wrapper's inner marker
(`DispatchGraph.inner`: `self.for_marker(self.marker.marker)(...)`);
crashes on a non-wrapper marker. -/
def passThroughWrapper : OpHandler V R := fun recurse m v =>
  match m.innerM with
  | some im => recurse im v
  | none => none

/-- Stand-in for an operation handler registered at some kind; its body is
irrelevant to the wrapper pass-through claim. -/
def hOpaque (n : Nat) : OpHandler Nat Nat := fun _ _ _ => some n

/-- `passthrough_tl` (base.py `clone.when(Leaf)`): return the value. -/
def hCloneLeaf : OpHandler Nat Nat := fun _ _ v => some v

/-- Kind tags of the marker classes: object = 0, Marker = 1, Leaf = 2,
Wrapper = 3, a wrapper subclass with registered handlers (Optional) = 4,
a wrapper subclass with no registered handlers = 5, with their Python
`__mro__` ancestry chains. -/
def tvKindMro : Nat → List Nat := fun k =>
  if k = 0 then [0]
  else if k = 1 then [1, 0]
  else if k = 2 then [2, 1, 0]
  else if k = 3 then [3, 1, 0]
  else if k = 4 then [4, 3, 1, 0]
  else if k = 5 then [5, 3, 1, 0]
  else [k, 0]

/-- The operation registries built in base.py: 0 = `base_dispatcher`
(registers `pass_through_wrapper` at Wrapper), 1 = `traverse`
(`traverse_object` at Marker), 2 = `validate = traverse.sub()` (plus
`validate_optional` at Optional), 3 = `clone` (`passthrough_tl` at Leaf),
4 = `mutate = clone.sub()`, 5 = `dictify = clone.sub()` and
6 = `undictify = clone.sub()` (both with `dfy_undfy_optional` at
Optional).  Merge orders follow `Dispatcher.__init__`. -/
def tvOpsWorld : World Nat (OpHandler Nat Nat) MarkerT := fun r =>
  if r = 0 then
    ⟨fun k => if k = 3 then some passThroughWrapper else none, none, none, [0]⟩
  else if r = 1 then
    ⟨fun k => if k = 1 then some (hOpaque 11) else none, none, none, [1, 0]⟩
  else if r = 2 then
    ⟨fun k => if k = 4 then some (hOpaque 21) else none, none, none, [2, 1, 0]⟩
  else if r = 3 then
    ⟨fun k => if k = 2 then some hCloneLeaf else none, none, none, [3, 0]⟩
  else if r = 4 then
    ⟨fun _ => none, none, none, [4, 3, 0]⟩
  else if r = 5 then
    ⟨fun k => if k = 4 then some (hOpaque 51) else none, none, none, [5, 3, 0]⟩
  else if r = 6 then
    ⟨fun k => if k = 4 then some (hOpaque 61) else none, none, none, [6, 3, 0]⟩
  else ⟨fun _ => none, none, none, [r]⟩

/-! ## SchemaMapping extra-field policies (mapping.py) -/

/-- A JSON-ish Python value (`None`, int, str, dict). -/
inductive PVal where
  | pnone
  | pint (n : Int)
  | pstr (s : String)
  | pdict (entries : List (String × PVal))

/-- Python `dict` lookup on an association list (first match wins). -/
def lookupK {A B : Type} [DecidableEq A] : List (A × B) → A → Option B
  | [], _ => none
  | (a, b) :: rest, k => if a = k then some b else lookupK rest k

/-- The `extra_field_policy` flag of `SchemaMapping`:
'save', 'discard' or 'error'. -/
inductive Policy where
  | save
  | discard
  | error
deriving DecidableEq

/-- `validate_tl` for `Int()` (typed_leaf.py): a `type_error` unless the
value is an integer; error ids raised are collected as a list. -/
def validate_tl_int (v : PVal) : List String :=
  match v with
  | .pint _ => []
  | _ => ["type_error"]

/-- `traverse_schema`/`apply_schema` (schema.py) for the typegraph
`{age: Int()}` under a checking error mode: `missing_attr` when the field
is absent (`default_nones=False`), else the field's validation errors. -/
def traverse_schema_age (entries : List (String × PVal)) : List String :=
  match lookupK entries "age" with
  | none => ["missing_attr"]
  | some v => validate_tl_int v

/-- `set(value.keys()) - set(dispgraph.key_iter())` for the `{age: Int()}`
typegraph, in input order. -/
def extraKeysAge (entries : List (String × PVal)) : List String :=
  (entries.map Prod.fst).filter (fun k => decide (k ≠ "age"))

/-- `clone_schema`/`apply_schema` (schema.py) with `default_nones=True`
for the `{age: Int()}` typegraph; `Int` un/dictification passes values
through (`passthrough_tl`). -/
def clone_schema_age (entries : List (String × PVal)) : List (String × PVal) :=
  [("age", (lookupK entries "age").getD .pnone)]

/-- `validate_mapping` (mapping.py): type-check the dict, validate the
declared fields through `dispgraph.super(SchemaMapping)`, and under the
'error' and 'discard' policies add an `unexpected_fields` error when extra
keys are present; raise the aggregate if non-empty.  (Error aggregation is
an error-id list; `cantrips/error_aggregator.py` is not part of src/.) -/
def validate_mapping (policy : Policy) (v : PVal) : Except (List String) Unit :=
  match v with
  | .pdict entries =>
    let superErrs := traverse_schema_age entries
    let ownErrs :=
      if (policy = .error ∨ policy = .discard) ∧ extraKeysAge entries ≠ []
      then ["unexpected_fields"] else []
    match superErrs ++ ownErrs with
    | [] => .ok ()
    | errs => .error errs
  | _ => .error ["type_error"]

/-- `dictify_mapping` (mapping.py): dictify the declared fields through
the Schema handler, and copy the extra keys into the result only under the
'save' policy.  (Default error mode is IGNORE: no checks, no errors.) -/
def dictify_mapping (policy : Policy) (entries : List (String × PVal)) : PVal :=
  let result := clone_schema_age entries
  if policy = .save then
    .pdict (result ++ (extraKeysAge entries).map
      (fun k => (k, (lookupK entries k).getD .pnone)))
  else .pdict result

/-- `undictify_mapping` (mapping.py): undictify the declared fields through
the Schema handler (checking error mode, so a non-dict is a `type_error`),
raise `unexpected_fields` under 'error' when extra keys are present, copy
the extra keys into the result under 'save', drop them under 'discard'. -/
def undictify_mapping (policy : Policy) (v : PVal) : Except (List String) PVal :=
  match v with
  | .pdict entries =>
    let result := clone_schema_age entries
    if policy = .error ∧ extraKeysAge entries ≠ [] then
      .error ["unexpected_fields"]
    else if policy = .save then
      .ok (.pdict (result ++ (extraKeysAge entries).map
        (fun k => (k, (lookupK entries k).getD .pnone))))
    else .ok (.pdict result)
  | _ => .error ["type_error"]

/-! ## Argument defaults (`default_value` / `default_factory`) -/

/-- Modelled from the spec: `Dispatcher.default_value` and
`Dispatcher.default_factory` are called in base.py, document.py and the
tests, but their implementation is not part of src/.  Per the spec they
register a default for a named argument that downstream handlers receive
when the caller did not supply it explicitly; a factory default is
re-evaluated (`thunk()`) at each call.  Argument defaults are a map from
argument name to thunk; a later registration for the same name replaces
the earlier one. -/
def ArgDefaults (V : Type) : Type := String → Option (Unit → V)

/-- Modelled from the spec: `default_value(argname, value)`. -/
def addDefaultValue (ds : ArgDefaults V) (a : String) (val : V) :
    ArgDefaults V :=
  fun x => if x = a then some (fun _ => val) else ds x

/-- Modelled from the spec: `default_factory(argname, thunk)`. -/
def addDefaultFactory (ds : ArgDefaults V) (a : String) (thunk : Unit → V) :
    ArgDefaults V :=
  fun x => if x = a then some (thunk) else ds x

/-- Modelled from the spec: the keyword argument named `x` as the resolved
handler receives it — the caller's value when supplied, otherwise the
registered default (factory defaults freshly evaluated), otherwise
absent. -/
def deliveredArg (ds : ArgDefaults V) (kwargs : List (String × V))
    (x : String) : Option V :=
  match lookupK kwargs x with
  | some v => some v
  | none => (ds x).map (fun th => th ())

/-- Modelled from the spec: `Dispatcher.call` hands the resolved handler
the keyword-argument view merged with the registered defaults. -/
def callWithDefaults {ρ : Type} (handler : ν → (String → Option V) → ρ)
    (ds : ArgDefaults V) (v : ν) (kwargs : List (String × V)) : ρ :=
  handler v (deliveredArg ds kwargs)

/-! ## Documents and DocSets (document/document.py, document/docset.py) -/

/-- A document type: its `field_types` keys ("uid" is always among them). -/
structure DocType where
  fields : List String

/-- A document instance: `uid`, the `loaded` flag, and the attribute
dictionary holding the declared non-uid fields once loaded. -/
structure DocObj where
  uid : String
  loaded : Bool
  attrs : List (String × PVal)

/-- `Document._create_unloaded`: an empty instance with `loaded = False`
and only `uid` set. -/
def create_unloaded (uid : String) : DocObj :=
  ⟨uid, false, []⟩

/-- Attribute access on a document (`Document.__getattr__` plus ordinary
lookup): `uid` is always readable; an unset declared field of an unloaded
document raises `UnloadedDocumentException`; any other unset attribute is
an AttributeError. -/
def getAttrD (T : DocType) (d : DocObj) (a : String) : Except String PVal :=
  if a = "uid" then .ok (.pstr d.uid)
  else
    match lookupK d.attrs a with
    | some v => .ok v
    | none =>
      if ¬ d.loaded ∧ a ∈ T.fields then .error "unloaded_access"
      else .error "attribute_error"

/-- `Document._load`: set `loaded`, reject undeclared attribute names
(TypeError), and set every declared field other than `uid` from `attrs`
(missing ones default to None). -/
def doc_load_raw (T : DocType) (d : DocObj) (attrs : List (String × PVal)) :
    Except String DocObj :=
  if (attrs.map Prod.fst).all (fun k => decide (k ∈ T.fields)) then
    .ok { uid := d.uid, loaded := true,
          attrs := (T.fields.filter (fun k => decide (k ≠ "uid"))).map
            (fun k => (k, (lookupK attrs k).getD .pnone)) }
  else .error "type_error_unexpected_kwargs"

/-- `Document.load`: `DoubleLoadException` when already loaded, else
`_load`. -/
def doc_load (T : DocType) (d : DocObj) (attrs : List (String × PVal)) :
    Except String DocObj :=
  if d.loaded then .error "double_load"
  else doc_load_raw T d attrs

/-- A `DocSet`: `document_map` maps (type, uid) keys to heap indices, and
the heap holds the document objects, so "the same object instance" is
"the same heap index".  Document types are numeric identities resolved
through a `Nat → DocType` table. -/
structure DocSetSt where
  dmap : List ((Nat × String) × Nat)
  heap : List DocObj

/-- Read a heap slot. -/
def heapGet (s : DocSetSt) (i : Nat) : DocObj :=
  s.heap.getD i (create_unloaded "")

/-- `DocSet.get_or_create`:
`self.document_map.setdefault(key, type._create_unloaded(uid))`. -/
def get_or_create (s : DocSetSt) (ty : Nat) (uid : String) : Nat × DocSetSt :=
  match lookupK s.dmap (ty, uid) with
  | some i => (i, s)
  | none =>
    (s.heap.length,
     ⟨s.dmap ++ [((ty, uid), s.heap.length)],
      s.heap ++ [create_unloaded uid]⟩)

/-- `udf_document` (document.py): under a checking error mode a dict
without "uid" is `missing_key:uid`; fetch or create the placeholder for
the uid; return it untouched when the input is the bare one-key stub
`{"uid": u}` and the type declares more fields; otherwise build the
attribute dict through the schema (leaf undictification passes values
through, absent fields default to None), reject unexpected keys under the
checking mode, and load the document.  `errorCheck` stands for
`error_mode != IGNORE` (undictify defaults to CHECK_ALL). -/
def udf_document (types : Nat → DocType) (ty : Nat) (s : DocSetSt)
    (value : List (String × PVal)) (errorCheck : Bool) :
    Except String (Nat × DocSetSt) :=
  if errorCheck ∧ (lookupK value "uid").isNone then .error "missing_key:uid"
  else
    match lookupK value "uid" with
    | some (.pstr uid) =>
      let is1 := get_or_create s ty uid
      if value.length = 1 ∧ 1 < (types ty).fields.length then .ok is1
      else
        let attrs := (types ty).fields.map
          (fun k => (k, (lookupK value k).getD .pnone))
        if errorCheck ∧
            ((value.map Prod.fst).filter
              (fun k => decide (k ∉ (types ty).fields))) ≠ [] then
          .error "unexpected_fields"
        else
          match doc_load (types ty) (heapGet is1.2 is1.1) attrs with
          | .ok newDoc => .ok (is1.1, ⟨is1.2.dmap, is1.2.heap.set is1.1 newDoc⟩)
          | .error e => .error e
    | _ => .error "key_error:uid"

/-- `DocSet.load`: when the raw data names an already-loaded key, fail
with `DoubleLoadException` unless `allow_double_load`, in which case the
existing loaded instance is returned unchanged and the raw data is
discarded; otherwise `undictify` the raw data with this docset active. -/
def docset_load (types : Nat → DocType) (s : DocSetSt) (ty : Nat)
    (raw : List (String × PVal)) (allowDouble : Bool) :
    Except String (Nat × DocSetSt) :=
  match lookupK raw "uid" with
  | some (.pstr u) =>
    match lookupK s.dmap (ty, u) with
    | some i =>
      if (heapGet s i).loaded then
        if allowDouble then .ok (i, s) else .error "double_load"
      else udf_document types ty s raw true
    | none => udf_document types ty s raw true
  | _ => udf_document types ty s raw true

/-! ## Cycle-safe document dictification (`dictify_document`) -/

/-- The serialized form of a document under dictify: the full form (uid
plus the serialized referenced documents, in traversal order) or the
key-only stub `dict(uid=doc.uid)`. -/
inductive DVal where
  | full (uid : Nat) (children : List DVal)
  | stub (uid : Nat)

/-- The super-call of `dictify_document`: serialize the referenced
documents left to right, threading the shared (mutated)
`_tv_docs_processed` set; `step` is the dictification of one document. -/
def dictifyList (step : Finset Nat → Nat → Option (DVal × Finset Nat)) :
    Finset Nat → List Nat → Option (List DVal × Finset Nat)
  | p, [] => some ([], p)
  | p, c :: rest =>
    match step p c with
    | some (v, p1) =>
      match dictifyList step p1 rest with
      | some (vs, p2) => some (v :: vs, p2)
      | none => none
    | none => none

/-- `dictify_document`: a document already in the per-call
`_tv_docs_processed` set collapses to its key stub; a first encounter is
added to the set and serialized fully, with the same set threaded through
the children.  `refs` abstracts the typegraph walk between documents (the
documents each document references, in traversal order); `fuel` bounds
full-serialization nesting depth, `none` standing for non-termination. -/
def dictifyDoc (refs : Nat → List Nat) :
    Nat → Finset Nat → Nat → Option (DVal × Finset Nat)
  | 0, p, d => if d ∈ p then some (.stub d, p) else none
  | fuel + 1, p, d =>
    if d ∈ p then some (.stub d, p)
    else
      match dictifyList (dictifyDoc refs fuel) (insert d p) (refs d) with
      | some (cs, p2) => some (.full d cs, p2)
      | none => none

mutual
/-- Pre-order occurrence list of a serialized tree: (uid, full?). -/
def occs : DVal → List (Nat × Bool)
  | .full u cs => (u, true) :: occsList cs
  | .stub u => [(u, false)]

def occsList : List DVal → List (Nat × Bool)
  | [] => []
  | v :: vs => occs v ++ occsList vs
end

/-- Claim-worded cycle-safety check: scanning the output left to right
with the set of documents already serialized, every full occurrence is of
a document not yet seen (and marks it seen) and every stub occurrence is
of a document seen before — the first encounter of each document within
one call is full, every later one is only its key stub. -/
def okScan : Finset Nat → List (Nat × Bool) → Bool
  | _, [] => true
  | seen, (u, true) :: rest => decide (u ∉ seen) && okScan (insert u seen) rest
  | seen, (u, false) :: rest => decide (u ∈ seen) && okScan seen rest

/-- The seen-set after scanning an occurrence list. -/
def scanEnd : Finset Nat → List (Nat × Bool) → Finset Nat
  | seen, [] => seen
  | seen, (u, true) :: rest => scanEnd (insert u seen) rest
  | seen, (_, false) :: rest => scanEnd seen rest

/-- Two documents referencing each other (A = 0 references B = 1 and
vice versa). -/
def refs2 : Nat → List Nat := fun d =>
  if d = 0 then [1] else if d = 1 then [0] else []

/-! ## Theorems -/

theorem tailsCnt_nil (x : α) : tailsCnt ([] : List (List α)) x = 0 := rfl

theorem tailsCnt_cons (l : List α) (ls : List (List α)) (x : α) :
    tailsCnt (l :: ls) x = l.tail.count x + tailsCnt ls x := by
  simp [tailsCnt]

theorem popTails_formula (h : α) (t : α → Int) (ls : List (List α)) (x : α) :
    popTails h t ls x =
      t x + (tailsCnt (popLists h ls) x : Int) - (tailsCnt ls x : Int) := by
  induction ls generalizing t with
  | nil => simp [popTails, popLists, tailsCnt]
  | cons a rest ih =>
    cases a with
    | nil =>
      simp only [popTails, popLists]
      rw [ih]
      simp [tailsCnt_cons]
    | cons y l =>
      by_cases hy : y = h
      · subst hy
        cases l with
        | nil =>
          simp only [popTails, popLists, eq_self_iff_true, if_true]
          rw [ih]
          simp [tailsCnt_cons]
        | cons b l' =>
          simp only [popTails, popLists, eq_self_iff_true, if_true]
          rw [ih]
          simp only [tailsCnt_cons, subtractOne, List.tail_cons]
          by_cases hxb : x = b
          · subst hxb
            simp only [List.count_cons_self, eq_self_iff_true, if_true]
            push_cast
            ring
          · rw [List.count_cons_of_ne hxb, if_neg hxb]
            push_cast
            ring
      · simp only [popTails, popLists, if_neg hy]
        rw [ih]
        simp only [tailsCnt_cons, List.tail_cons]
        push_cast
        ring

theorem popTails_tailsInit (h : α) (t : α → Int) (ls : List (List α))
    (ht : ∀ x, t x = tailsInit ls x) (x : α) :
    popTails h t ls x = tailsInit (popLists h ls) x := by
  rw [popTails_formula, ht x]
  simp [tailsInit]

theorem findHead_exists_mem {t : α → Int} {ls : List (List α)} {h : α}
    (hf : findHead t ls = some h) : ∃ r, (h :: r) ∈ ls := by
  induction ls with
  | nil => simp [findHead] at hf
  | cons a rest ih =>
    cases a with
    | nil =>
      simp only [findHead] at hf
      obtain ⟨r, hr⟩ := ih hf
      exact ⟨r, List.mem_cons_of_mem _ hr⟩
    | cons y l =>
      simp only [findHead] at hf
      by_cases hy : t y = 0
      · rw [if_pos hy] at hf
        obtain rfl : y = h := Option.some.inj hf
        exact ⟨l, List.mem_cons_self _ _⟩
      · rw [if_neg hy] at hf
        obtain ⟨r, hr⟩ := ih hf
        exact ⟨r, List.mem_cons_of_mem _ hr⟩

theorem findHead_zero {t : α → Int} {ls : List (List α)} {h : α}
    (hf : findHead t ls = some h) : t h = 0 := by
  induction ls with
  | nil => simp [findHead] at hf
  | cons a rest ih =>
    cases a with
    | nil => simp only [findHead] at hf; exact ih hf
    | cons y l =>
      simp only [findHead] at hf
      by_cases hy : t y = 0
      · rw [if_pos hy] at hf
        obtain rfl : y = h := Option.some.inj hf
        exact hy
      · rw [if_neg hy] at hf
        exact ih hf

theorem tailsInit_zero_not_mem_tail {ls : List (List α)} {h : α}
    (hz : tailsInit ls h = 0) : ∀ l ∈ ls, h ∉ l.tail := by
  intro l hl hmem
  have hcnt : tailsCnt ls h = 0 := by simpa [tailsInit] using hz
  have hzero : l.tail.count h = 0 := by
    rw [tailsCnt] at hcnt
    have hmm : l.tail.count h ∈ ls.map fun l => l.tail.count h :=
      List.mem_map_of_mem _ hl
    exact List.sum_eq_zero_iff.mp hcnt _ hmm
  exact (List.count_eq_zero.mp hzero) hmem

theorem mem_popLists {h : α} {ls : List (List α)} :
    ∀ m ∈ popLists h ls, ∃ l, l ∈ ls ∧ ((m = l ∧ l.head? ≠ some h) ∨ l = h :: m) := by
  induction ls with
  | nil => simp [popLists]
  | cons a rest ih =>
    cases a with
    | nil =>
      intro m hm
      simp only [popLists] at hm
      obtain ⟨l, hl, hc⟩ := ih m hm
      exact ⟨l, List.mem_cons_of_mem _ hl, hc⟩
    | cons y l =>
      intro m hm
      by_cases hy : y = h
      · subst hy
        cases l with
        | nil =>
          simp only [popLists, eq_self_iff_true, if_true] at hm
          obtain ⟨l', hl', hc⟩ := ih m hm
          exact ⟨l', List.mem_cons_of_mem _ hl', hc⟩
        | cons b l' =>
          simp only [popLists, eq_self_iff_true, if_true] at hm
          rcases List.mem_cons.mp hm with rfl | hm'
          · exact ⟨y :: b :: l', List.mem_cons_self _ _, Or.inr rfl⟩
          · obtain ⟨l2, hl2, hc⟩ := ih m hm'
            exact ⟨l2, List.mem_cons_of_mem _ hl2, hc⟩
      · simp only [popLists, if_neg hy] at hm
        rcases List.mem_cons.mp hm with rfl | hm'
        · exact ⟨y :: l, List.mem_cons_self _ _,
            Or.inl ⟨rfl, by simp [List.head?]; exact hy⟩⟩
        · obtain ⟨l2, hl2, hc⟩ := ih m hm'
          exact ⟨l2, List.mem_cons_of_mem _ hl2, hc⟩

theorem popLists_shape (h : α) {ls : List (List α)} :
    ∀ l ∈ ls, l = [] ∨
      (∃ r, l = h :: r ∧ (r = [] ∨ r ∈ popLists h ls)) ∨
      (l.head? ≠ some h ∧ l ∈ popLists h ls) := by
  induction ls with
  | nil => simp
  | cons a rest ih =>
    intro l hl
    rcases List.mem_cons.mp hl with rfl | hl'
    · cases l with
      | nil => exact Or.inl rfl
      | cons y m =>
        by_cases hy : y = h
        · subst hy
          refine Or.inr (Or.inl ⟨m, rfl, ?_⟩)
          cases m with
          | nil => exact Or.inl rfl
          | cons b l' =>
            refine Or.inr ?_
            simp [popLists]
        · refine Or.inr (Or.inr ⟨by simp [List.head?]; exact hy, ?_⟩)
          simp [popLists, if_neg hy]
    · rcases ih l hl' with hc | ⟨r, hr, hrc⟩ | ⟨hh, hm⟩
      · exact Or.inl hc
      · refine Or.inr (Or.inl ⟨r, hr, ?_⟩)
        rcases hrc with rfl | hrm
        · exact Or.inl rfl
        · refine Or.inr ?_
          cases a with
          | nil => simpa [popLists] using hrm
          | cons y m =>
            by_cases hy : y = h
            · subst hy
              cases m with
              | nil => simpa [popLists] using hrm
              | cons b l' =>
                simp only [popLists, eq_self_iff_true, if_true]
                exact List.mem_cons_of_mem _ hrm
            · simp only [popLists, if_neg hy]
              exact List.mem_cons_of_mem _ hrm
      · refine Or.inr (Or.inr ⟨hh, ?_⟩)
        cases a with
        | nil => simpa [popLists] using hm
        | cons y m =>
          by_cases hy : y = h
          · subst hy
            cases m with
            | nil => simpa [popLists] using hm
            | cons b l' =>
              simp only [popLists, eq_self_iff_true, if_true]
              exact List.mem_cons_of_mem _ hm
          · simp only [popLists, if_neg hy]
            exact List.mem_cons_of_mem _ hm

theorem totalLen_cons (a : List α) (ls : List (List α)) :
    totalLen (a :: ls) = a.length + totalLen ls := by
  simp [totalLen]

theorem popLists_nil_cons (h : α) (rest : List (List α)) :
    popLists h ([] :: rest) = popLists h rest := by
  simp [popLists]

theorem popLists_head_one (h : α) (rest : List (List α)) :
    popLists h ([h] :: rest) = popLists h rest := by
  simp [popLists]

theorem popLists_head_more (h b : α) (l' : List α) (rest : List (List α)) :
    popLists h ((h :: b :: l') :: rest) = (b :: l') :: popLists h rest := by
  simp [popLists]

theorem popLists_other {x h : α} (hx : x ≠ h) (m : List α) (rest : List (List α)) :
    popLists h ((x :: m) :: rest) = (x :: m) :: popLists h rest := by
  simp [popLists, if_neg hx]

theorem totalLen_popLists_le (h : α) (ls : List (List α)) :
    totalLen (popLists h ls) ≤ totalLen ls := by
  induction ls with
  | nil => simp [popLists]
  | cons a rest ih =>
    cases a with
    | nil =>
      rw [popLists_nil_cons, totalLen_cons]
      omega
    | cons x m =>
      by_cases hx : x = h
      · subst hx
        cases m with
        | nil =>
          rw [popLists_head_one, totalLen_cons]
          omega
        | cons b l' =>
          rw [popLists_head_more, totalLen_cons, totalLen_cons]
          simp only [List.length_cons]
          omega
      · rw [popLists_other hx, totalLen_cons, totalLen_cons]
        omega

theorem totalLen_popLists_lt {t : α → Int} {ls : List (List α)} {h : α}
    (hf : findHead t ls = some h) : totalLen (popLists h ls) < totalLen ls := by
  obtain ⟨r, hr⟩ := findHead_exists_mem hf
  clear hf
  induction ls with
  | nil => simp at hr
  | cons a rest ih =>
    rcases List.mem_cons.mp hr with rfl | hr'
    · cases r with
      | nil =>
        rw [popLists_head_one, totalLen_cons]
        have := totalLen_popLists_le h rest
        simp only [List.length_cons, List.length_nil]
        omega
      | cons b l' =>
        rw [popLists_head_more, totalLen_cons, totalLen_cons]
        have := totalLen_popLists_le h rest
        simp only [List.length_cons]
        omega
    · have hlt' := ih hr'
      cases a with
      | nil =>
        rw [popLists_nil_cons, totalLen_cons]
        omega
      | cons x m =>
        by_cases hx : x = h
        · subst hx
          cases m with
          | nil =>
            rw [popLists_head_one, totalLen_cons]
            omega
          | cons b l' =>
            rw [popLists_head_more, totalLen_cons, totalLen_cons]
            simp only [List.length_cons]
            omega
        · rw [popLists_other hx, totalLen_cons, totalLen_cons]
          omega

theorem tailsInit_eq_zero_iff {ls : List (List α)} {x : α} :
    tailsInit ls x = 0 ↔ ∀ l ∈ ls, x ∉ l.tail := by
  constructor
  · exact tailsInit_zero_not_mem_tail
  · intro hall
    simp only [tailsInit, tailsCnt]
    norm_cast
    rw [List.sum_eq_zero_iff]
    intro y hy
    obtain ⟨l, hl, rfl⟩ := List.mem_map.mp hy
    exact List.count_eq_zero.mpr (hall l hl)

theorem mergeAux_spec (n : Nat) :
    ∀ (ls : List (List α)) (t : α → Int) (out : List α),
      totalLen ls = n → (∀ x, t x = tailsInit ls x) →
      mergeAux ls t = Except.ok out →
      (∀ l ∈ ls, l.Sublist out) ∧ out.Nodup ∧
        (∀ x, x ∈ out ↔ ∃ l ∈ ls, x ∈ l) := by
  induction n using Nat.strong_induction_on with
  | _ n ih =>
    intro ls t out hn ht hok
    cases ls with
    | nil =>
      rw [mergeAux] at hok
      injection hok with hout
      subst hout
      exact ⟨by simp, List.nodup_nil, by simp⟩
    | cons l0 rest =>
      rw [mergeAux] at hok
      split at hok
      · exact absurd hok (by simp)
      · rename_i h heq
        cases hrec : mergeAux (popLists h (l0 :: rest)) (popTails h t (l0 :: rest)) with
        | error e => rw [hrec] at hok; simp [Except.map] at hok
        | ok out' =>
          rw [hrec] at hok
          simp only [Except.map] at hok
          obtain rfl : h :: out' = out := Except.ok.inj hok
          have hlt : totalLen (popLists h (l0 :: rest)) < n := hn ▸ totalLen_popLists_lt heq
          have ht' := popTails_tailsInit h t (l0 :: rest) ht
          obtain ⟨IHsub, IHnodup, IHcov⟩ :=
            ih _ hlt (popLists h (l0 :: rest)) (popTails h t (l0 :: rest)) out' rfl ht' hrec
          have hz : tailsInit (l0 :: rest) h = 0 := by
            rw [← ht h]; exact findHead_zero heq
          have hnot : ∀ l ∈ l0 :: rest, h ∉ l.tail := tailsInit_zero_not_mem_tail hz
          have hhead := findHead_exists_mem heq
          have hpop : ∀ m ∈ popLists h (l0 :: rest), h ∉ m := by
            intro m hm hmem
            obtain ⟨l, hl, hc⟩ := mem_popLists m hm
            rcases hc with ⟨rfl, hhd⟩ | rfl
            · cases m with
              | nil => simp at hmem
              | cons c cs =>
                rcases List.mem_cons.mp hmem with rfl | hmm
                · exact hhd (by simp)
                · exact hnot _ hl (by simpa using hmm)
            · exact hnot _ hl (by simpa using hmem)
          refine ⟨?_, ?_, ?_⟩
          · intro l hl
            rcases popLists_shape h l hl with rfl | ⟨r, rfl, hrc⟩ | ⟨_, hm⟩
            · exact List.nil_sublist _
            · rcases hrc with rfl | hrm
              · exact (List.nil_sublist out').cons₂ h
              · exact (IHsub r hrm).cons₂ h
            · exact (IHsub l hm).cons h
          · refine List.nodup_cons.mpr ⟨?_, IHnodup⟩
            intro hmem
            obtain ⟨m, hm, hx⟩ := (IHcov h).mp hmem
            exact hpop m hm hx
          · intro x
            constructor
            · intro hx
              rcases List.mem_cons.mp hx with rfl | hx'
              · obtain ⟨r, hr⟩ := hhead
                exact ⟨x :: r, hr, List.mem_cons_self _ _⟩
              · obtain ⟨m, hm, hxm⟩ := (IHcov x).mp hx'
                obtain ⟨l, hl, hc⟩ := mem_popLists m hm
                rcases hc with ⟨rfl, _⟩ | rfl
                · exact ⟨m, hl, hxm⟩
                · exact ⟨h :: m, hl, List.mem_cons_of_mem _ hxm⟩
            · rintro ⟨l, hl, hx⟩
              rcases popLists_shape h l hl with rfl | ⟨r, rfl, hrc⟩ | ⟨_, hm⟩
              · simp at hx
              · rcases List.mem_cons.mp hx with rfl | hx'
                · exact List.mem_cons_self _ _
                · rcases hrc with rfl | hrm
                  · simp at hx'
                  · exact List.mem_cons_of_mem _ ((IHcov x).mpr ⟨r, hrm, hx'⟩)
              · exact List.mem_cons_of_mem _ ((IHcov x).mpr ⟨l, hm, hx⟩)

theorem findHead_eq_claimHead_aux :
    ∀ (rem pre : List (List α)), (∀ l ∈ rem, l.Nodup) →
      findHead (tailsInit (pre ++ rem)) rem = claimHead pre rem := by
  intro rem
  induction rem with
  | nil => intro pre _; rfl
  | cons a rest ih =>
    intro pre hnd
    have hnd' : ∀ l ∈ rest, l.Nodup := fun l hl => hnd l (List.mem_cons_of_mem _ hl)
    cases a with
    | nil =>
      show findHead (tailsInit (pre ++ [] :: rest)) rest = claimHead (pre ++ [[]]) rest
      rw [← ih (pre ++ [[]]) hnd', List.append_assoc]
      rfl
    | cons x l =>
      have hxl : x ∉ l := (List.nodup_cons.mp (hnd _ (List.mem_cons_self _ _))).1
      have hcond : (tailsInit (pre ++ (x :: l) :: rest) x = 0) ↔
          (∀ o ∈ pre ++ rest, x ∉ o.tail) := by
        rw [tailsInit_eq_zero_iff]
        constructor
        · intro hall o ho
          rcases List.mem_append.mp ho with h1 | h2
          · exact hall o (List.mem_append.mpr (Or.inl h1))
          · exact hall o (List.mem_append.mpr (Or.inr (List.mem_cons_of_mem _ h2)))
        · intro hall o ho
          rcases List.mem_append.mp ho with h1 | h2
          · exact hall o (List.mem_append.mpr (Or.inl h1))
          · rcases List.mem_cons.mp h2 with rfl | h3
            · simpa using hxl
            · exact hall o (List.mem_append.mpr (Or.inr h3))
      have hcondB : (((pre ++ rest).all fun o => decide (x ∉ o.tail)) = true) ↔
          (∀ o ∈ pre ++ rest, x ∉ o.tail) := by
        simp only [List.all_eq_true, decide_eq_true_eq, List.mem_append]
      simp only [findHead, claimHead]
      by_cases hc : ∀ o ∈ pre ++ rest, x ∉ o.tail
      · rw [if_pos (hcond.mpr hc), if_pos (hcondB.mpr hc)]
      · rw [if_neg (fun hh => hc (hcond.mp hh)), if_neg (fun hh => hc (hcondB.mp hh))]
        rw [← ih (pre ++ [x :: l]) hnd', List.append_assoc]
        rfl

theorem mergeAux_step {ls : List (List α)} {t : α → Int} {h : α}
    (hf : findHead t ls = some h) :
    mergeAux ls t = (mergeAux (popLists h ls) (popTails h t ls)).map (h :: ·) := by
  cases ls with
  | nil => simp [findHead] at hf
  | cons l0 rest =>
    rw [mergeAux]
    split
    · rename_i heq; rw [hf] at heq; cases heq
    · rename_i h' heq
      rw [hf] at heq
      obtain rfl : h = h' := Option.some.inj heq
      rfl

theorem mergeAux_stuck {ls : List (List α)} {t : α → Int}
    (hne : ls ≠ []) (hf : findHead t ls = none) :
    mergeAux ls t = Except.error "Cannot create a consistent merge order for lists." := by
  cases ls with
  | nil => exact absurd rfl hne
  | cons l0 rest =>
    rw [mergeAux]
    split
    · rfl
    · rename_i h' heq; rw [hf] at heq; cases heq

theorem mergeAux_nil (t : α → Int) : mergeAux ([] : List (List α)) t = Except.ok [] := by
  rw [mergeAux]

/-- **C1**: whenever `merge` returns an order, that order contains every
element of the inputs exactly once (it is duplicate-free and covers exactly
the input elements) and every input list occurs as a subsequence of it;
the selection made at each step (`findHead` over the live `tails` counter)
is the head of the first remaining list whose head does not appear in the
tail of any other remaining list (for duplicate-free inputs, as registry
resolution orders are); and the inconsistent pair `[[1,2],[2,1]]` yields
the inconsistent-merge-order error rather than an order. -/
theorem merge_linearization_spec :
    (∀ (lists : List (List α)) (out : List α),
        merge lists = Except.ok out →
        (∀ l ∈ lists, l.Sublist out) ∧ out.Nodup ∧
          (∀ x, x ∈ out ↔ ∃ l ∈ lists, x ∈ l)) ∧
    (∀ (lists : List (List α)), (∀ l ∈ lists, l.Nodup) →
        findHead (tailsInit lists) lists = claimHead [] lists) ∧
    merge [[1, 2], [2, 1]] =
      (Except.error "Cannot create a consistent merge order for lists." :
        Except String (List Nat)) := by
  refine ⟨?_, ?_, ?_⟩
  · intro lists out hok
    exact mergeAux_spec (totalLen lists) lists (tailsInit lists) out rfl
      (fun _ => rfl) hok
  · intro lists hnd
    exact findHead_eq_claimHead_aux lists [] hnd
  · have hf : findHead (tailsInit [[1, 2], [2, 1]]) [[1, 2], [2, 1]] =
        (none : Option Nat) := by decide
    exact mergeAux_stuck (by simp) hf

/-- Witness for C1: `merge [[1], [2]] = ok [1, 2]`, on which the three
linearization properties and the selection rule hold. -/
theorem merge_linearization_spec_witness :
    (∀ l ∈ [[1], [2]], l.Sublist [1, 2]) ∧ ([1, 2] : List Nat).Nodup ∧
      (∀ x, x ∈ [1, 2] ↔ ∃ l ∈ [[1], [2]], x ∈ (l : List Nat)) ∧
      findHead (tailsInit [[1], [2]]) [[1], [2]] = claimHead [] [[1], [2]] := by
  have h1 : findHead (tailsInit [[1], [2]]) [[1], [2]] = some (1 : Nat) := by decide
  have h2 : findHead (popTails 1 (tailsInit [[1], [2]]) [[1], [2]])
      (popLists 1 [[1], [2]]) = some (2 : Nat) := by decide
  have hok : merge [[1], [2]] = Except.ok [1, 2] := by
    rw [merge, mergeAux_step h1, mergeAux_step h2]
    have hp : popLists 2 (popLists 1 [[1], [2]]) = ([] : List (List Nat)) := by decide
    rw [hp, mergeAux_nil]
    rfl
  obtain ⟨hs, hn, hc⟩ := merge_linearization_spec.1 [[1], [2]] [1, 2] hok
  exact ⟨hs, hn, hc, merge_linearization_spec.2.1 [[1], [2]] (by decide)⟩

theorem dispatchKey_cons (w : World κ φ ν) (r : Nat) (rest : List Nat) (k : κ) :
    dispatchKey w (r :: rest) k =
      ((w r).mapping k).orElse (fun _ => dispatchKey w rest k) := by
  simp only [dispatchKey, List.findSome?_cons]
  cases (w r).mapping k <;> rfl

theorem dispatchKey_isSome_iff {w : World κ φ ν} {mro : List Nat} {k : κ} :
    (mro.any fun r => ((w r).mapping k).isSome) = true ↔
      (dispatchKey w mro k).isSome := by
  induction mro with
  | nil => simp [dispatchKey]
  | cons r rest ih =>
    rw [dispatchKey_cons]
    cases h : (w r).mapping k with
    | some f => simp [h, Option.orElse]
    | none => simpa [h, Option.orElse] using ih

theorem findSomeKeys_eq_resolveSpec (w : World κ φ ν) (mro : List Nat) :
    ∀ keys : List κ,
      (match keys.findSome? (fun k => dispatchKey w mro k) with
        | some f => some f
        | none => getDefault w mro) = resolveSpec w mro keys := by
  intro keys
  induction keys with
  | nil => rfl
  | cons k rest ih =>
    rw [resolveSpec]
    cases h : dispatchKey w mro k with
    | some g =>
      have hs : (mro.any fun r => ((w r).mapping k).isSome) = true :=
        dispatchKey_isSome_iff.mpr (by simp [h])
      rw [if_pos hs, ← h]
      simp [List.findSome?_cons, h]
    | none =>
      have hs : ¬ (mro.any fun r => ((w r).mapping k).isSome) = true := by
        rw [dispatchKey_isSome_iff, h]
        simp
      rw [if_neg hs, ← ih]
      simp [List.findSome?_cons, h]

/-- **C2**: resolution computes the target's key list via the registry's key
function, drops keys through `from_key` for a SuperMarker target, then
scans key-major (first key with an entry anywhere, first registry in merge
order holding it), with the default of the first declaring registry as
fallback; the registry's own entries (merge order starts with itself)
always win over parents' entries for the same key. -/
theorem dispatch_resolution_spec :
    (∀ (tm : ν → List κ) (w : World κ φ ν) (d : Nat) (v : ν),
        dispatch tm w d (.plain v) =
          resolveSpec w (w d).mro (toKeys tm (w d) v)) ∧
    (∀ (tm : ν → List κ) (w : World κ φ ν) (d : Nat) (k : κ) (v : ν),
        dispatch tm w d (.superM k v) =
          resolveSpec w (w d).mro (sliceAfter (toKeys tm (w d) v) k)) ∧
    (∀ (w : World κ φ ν) (d : Nat) (rest : List Nat) (k : κ) (f : φ),
        (w d).mapping k = some f → dispatchKey w (d :: rest) k = some f) ∧
    (∀ (selfId : Nat) (pms : List (List Nat)) (m : List Nat),
        initMro selfId pms = Except.ok m → ∃ m', m = selfId :: m') := by
  refine ⟨?_, ?_, ?_, ?_⟩
  · intro tm w d v
    exact findSomeKeys_eq_resolveSpec w (w d).mro (toKeys tm (w d) v)
  · intro tm w d k v
    exact findSomeKeys_eq_resolveSpec w (w d).mro (sliceAfter (toKeys tm (w d) v) k)
  · intro w d rest k f hf
    rw [dispatchKey_cons, hf]
    rfl
  · intro selfId pms m hm
    cases pms with
    | nil =>
      rw [initMro] at hm
      exact ⟨[], (Except.ok.inj hm).symm⟩
    | cons p ps =>
      rw [initMro] at hm
      cases hmg : merge (p :: ps) with
      | error e => rw [hmg] at hm; simp [Except.map] at hm
      | ok mm =>
        rw [hmg] at hm
        simp only [Except.map] at hm
        exact ⟨mm, (Except.ok.inj hm).symm⟩

/-- Witness for C2: registry 1's own entry for key 11 wins over the rest of
the merge order, and `initMro` puts the new registry first. -/
theorem dispatch_resolution_spec_witness :
    dispatchKey exWorld (1 :: [0]) 11 = some 101 ∧
      (∃ m', [7] = 7 :: m') := by
  constructor
  · exact (@dispatch_resolution_spec Nat Nat Nat _).2.2.1 exWorld 1 [0] 11 101 rfl
  · exact (@dispatch_resolution_spec Nat Nat Nat _).2.2.2 7 [] [7] rfl

theorem merge_single {l : List α} (hne : l ≠ []) (hnd : l.Nodup) :
    merge [l] = Except.ok l := by
  induction l with
  | nil => exact absurd rfl hne
  | cons a r ih =>
    have hz : tailsInit [a :: r] a = 0 := by
      rw [tailsInit_eq_zero_iff]
      intro l' hl'
      rw [List.mem_singleton] at hl'
      subst hl'
      simpa using (List.nodup_cons.mp hnd).1
    have hfind : findHead (tailsInit [a :: r]) [a :: r] = some a := by
      simp [findHead, hz]
    rw [merge, mergeAux_step hfind]
    have hpt : popTails a (tailsInit [a :: r]) [a :: r] =
        tailsInit (popLists a [a :: r]) :=
      funext (popTails_tailsInit a _ _ (fun _ => rfl))
    rw [hpt]
    cases r with
    | nil =>
      have hp : popLists a [[a]] = ([] : List (List α)) := by simp [popLists]
      rw [hp, mergeAux_nil]
      rfl
    | cons b r' =>
      have hp : popLists a [a :: b :: r'] = [b :: r'] := by simp [popLists]
      rw [hp]
      have hrec := ih (by simp) (List.nodup_cons.mp hnd).2
      rw [merge] at hrec
      rw [hrec]
      rfl

theorem register_other {w : World κ φ ν} {d r : Nat} (hr : r ≠ d)
    (keys : List κ) (fn : φ) : register w d keys fn r = w r := by
  simp [register, if_neg hr]

theorem applyRegs_other {w : World κ φ ν} {d r : Nat} (hr : r ≠ d) :
    ∀ regs : List (List κ × φ), applyRegs w d regs r = w r := by
  intro regs
  induction regs generalizing w with
  | nil => rfl
  | cons p rest ih =>
    obtain ⟨keys, fn⟩ := p
    rw [applyRegs, ih, register_other hr]

theorem dispatchKey_congr {w w' : World κ φ ν} {mro : List Nat}
    (hagree : ∀ r ∈ mro, w' r = w r) (k : κ) :
    dispatchKey w' mro k = dispatchKey w mro k := by
  induction mro with
  | nil => rfl
  | cons r rest ih =>
    rw [dispatchKey_cons, dispatchKey_cons,
      hagree r (List.mem_cons_self _ _),
      ih (fun r' hr' => hagree r' (List.mem_cons_of_mem _ hr'))]

theorem getDefault_congr {w w' : World κ φ ν} {mro : List Nat}
    (hagree : ∀ r ∈ mro, w' r = w r) :
    getDefault w' mro = getDefault w mro := by
  induction mro with
  | nil => rfl
  | cons r rest ih =>
    simp only [getDefault, List.findSome?_cons]
    rw [hagree r (List.mem_cons_self _ _)]
    cases (w r).dflt with
    | some f => rfl
    | none =>
      have := ih (fun r' hr' => hagree r' (List.mem_cons_of_mem _ hr'))
      simpa [getDefault] using this

theorem dispatch_congr {w w' : World κ φ ν} {o : Nat}
    (ho : w' o = w o) (hagree : ∀ r ∈ (w o).mro, w' r = w r)
    (tm : ν → List κ) (t : DTarget κ ν) :
    dispatch tm w' o t = dispatch tm w o t := by
  have hdk : (fun k => dispatchKey w' (w o).mro k) =
      (fun k => dispatchKey w (w o).mro k) :=
    funext (dispatchKey_congr hagree)
  have hgd : getDefault w' (w o).mro = getDefault w (w o).mro :=
    getDefault_congr hagree
  simp only [dispatch, ho, hdk, hgd]

/-- **C9**: `sub()` yields a new registry whose merge order is itself
followed by its sole parent's order, with an empty table, no default, and
the parent's key function; and no sequence of registrations on the derived
registry changes the dispatch behavior of any registry that does not have
the fresh identity in its merge order — in particular the original. -/
theorem sub_frame_spec :
    (∀ (w : World κ φ ν) (fresh parent : Nat),
        (w parent).mro ≠ [] → (w parent).mro.Nodup →
        ∃ w1, subDisp w fresh parent = Except.ok w1 ∧
          (w1 fresh).mro = fresh :: (w parent).mro ∧
          (w1 fresh).keyfn = (w parent).keyfn ∧
          (w1 fresh).mapping = (fun _ => none) ∧
          (w1 fresh).dflt = none ∧
          (∀ r, r ≠ fresh → w1 r = w r)) ∧
    (∀ (w w1 : World κ φ ν) (fresh parent o : Nat)
        (regs : List (List κ × φ)),
        subDisp w fresh parent = Except.ok w1 →
        o ≠ fresh → fresh ∉ (w o).mro →
        ∀ (tm : ν → List κ) (t : DTarget κ ν),
          dispatch tm (applyRegs w1 fresh regs) o t = dispatch tm w o t) := by
  constructor
  · intro w fresh parent hne hnd
    have hm : initMro fresh [(w parent).mro] =
        Except.ok (fresh :: (w parent).mro) := by
      rw [initMro, merge_single hne hnd]
      rfl
    refine ⟨_, by rw [subDisp, hm]; rfl, ?_, ?_, ?_, ?_, ?_⟩
    · simp
    · simp
    · simp
    · simp
    · intro r hr
      simp [if_neg hr]
  · intro w w1 fresh parent o regs hsub ho hfr tm t
    have hw1 : ∀ r, r ≠ fresh → w1 r = w r := by
      intro r hr
      rw [subDisp] at hsub
      cases hm : initMro fresh [(w parent).mro] with
      | error e => rw [hm] at hsub; simp [Except.map] at hsub
      | ok m =>
        rw [hm] at hsub
        simp only [Except.map] at hsub
        have := Except.ok.inj hsub
        rw [← this]
        simp [if_neg hr]
    have ho2 : applyRegs w1 fresh regs o = w o := by
      rw [applyRegs_other ho regs, hw1 o ho]
    have hagree : ∀ r ∈ (w o).mro, applyRegs w1 fresh regs r = w r := by
      intro r hr
      have hrf : r ≠ fresh := fun hh => hfr (hh ▸ hr)
      rw [applyRegs_other hrf regs, hw1 r hrf]
    exact dispatch_congr ho2 hagree tm t

/-- Witness for C9: deriving registry 2 from registry 1 of `exWorld` and
registering a handler for key 10 on it leaves registry 1's dispatch of a
plain target with key list `[10]` unchanged. -/
theorem sub_frame_spec_witness :
    (∃ w1, subDisp exWorld 2 1 = Except.ok w1 ∧
      (w1 2).mro = 2 :: (exWorld 1).mro ∧
      (w1 2).keyfn = (exWorld 1).keyfn ∧
      (w1 2).mapping = (fun _ => none) ∧
      (w1 2).dflt = none ∧
      (∀ r, r ≠ 2 → w1 r = exWorld r)) ∧
    dispatch (fun _ => [10]) (applyRegs exWorld1 2 [([10], 7)]) 1
        (DTarget.plain 0) =
      dispatch (fun _ => [10]) exWorld 1 (DTarget.plain 0) := by
  have hm : subDisp exWorld 2 1 = Except.ok exWorld1 := by
    rw [subDisp, initMro, merge_single (by decide) (by decide)]
    rfl
  constructor
  · exact (@sub_frame_spec Nat Nat Nat _).1 exWorld 2 1 (by decide) (by decide)
  · exact (@sub_frame_spec Nat Nat Nat _).2 exWorld exWorld1 2 1 1
      [([10], 7)] hm (by decide) (by decide) (fun _ => [10]) (DTarget.plain 0)

theorem dispatchKey_none {w : World κ φ ν} {mro : List Nat} {k : κ}
    (h : ∀ r ∈ mro, (w r).mapping k = none) : dispatchKey w mro k = none := by
  induction mro with
  | nil => rfl
  | cons r rest ih =>
    rw [dispatchKey_cons, h r (List.mem_cons_self _ _)]
    exact ih (fun r' hr' => h r' (List.mem_cons_of_mem _ hr'))

theorem findSome?_pre_none {β γ : Type} {f : β → Option γ} {pre : List β}
    (h : ∀ k ∈ pre, f k = none) (rest : List β) :
    (pre ++ rest).findSome? f = rest.findSome? f := by
  induction pre with
  | nil => rfl
  | cons k ks ih =>
    rw [List.cons_append, List.findSome?_cons, h k (List.mem_cons_self _ _)]
    exact ih (fun k' hk' => h k' (List.mem_cons_of_mem _ hk'))

/-- **C3**: for an operation registry whose resolution of the Wrapper kind
reaches `pass_through_wrapper` (none of the wrapper's own ancestry kinds
before `Wrapper` has an entry in any registry of the merge order, and
`Wrapper` resolves to the base pass-through), one evaluation step on a
wrapper marker equals evaluation on its inner marker (fuel counts nesting
depth); and all of traverse, validate, clone, mutate, dictify and
undictify inherit `pass_through_wrapper` at the Wrapper kind from
`base_dispatcher`. -/
theorem wrapper_pass_through_spec :
    (∀ (V R : Type) (kindMro : Nat → List Nat)
        (w : World Nat (OpHandler V R) MarkerT) (d wrapperK kw : Nat)
        (im : MarkerT) (v : V) (fuel : Nat) (pre post : List Nat),
        (w d).keyfn = none →
        kindMro kw = pre ++ wrapperK :: post →
        (∀ k ∈ pre, ∀ r ∈ (w d).mro, (w r).mapping k = none) →
        dispatchKey w (w d).mro wrapperK = some passThroughWrapper →
        evalOp kindMro w d (fuel + 1) (.node kw (some im)) v =
          evalOp kindMro w d fuel im v) ∧
    (∀ d ∈ ([1, 2, 3, 4, 5, 6] : List Nat),
        dispatchKey tvOpsWorld (tvOpsWorld d).mro 3 = some passThroughWrapper) := by
  constructor
  · intro V R kindMro w d wrapperK kw im v fuel pre post hkf hkm hpre hdk
    have hdisp : dispatch (fun mk => kindMro mk.kind) w d
        (.plain (.node kw (some im))) = some passThroughWrapper := by
      simp only [dispatch, toKeys, hkf, MarkerT.kind]
      rw [hkm]
      have hfs : (pre ++ wrapperK :: post).findSome?
          (fun k => dispatchKey w (w d).mro k) = some passThroughWrapper := by
        rw [findSome?_pre_none (fun k hk => dispatchKey_none (hpre k hk))]
        rw [List.findSome?_cons, hdk]
      rw [hfs]
    rw [evalOp, hdisp]
    rfl
  · intro d hd
    fin_cases hd <;> rfl

/-- Witness for C3: the validate registry applied to a wrapper of kind 5
(no handlers registered anywhere for kind 5) over a Leaf marker behaves as
validate applied directly to the Leaf marker. -/
theorem wrapper_pass_through_spec_witness :
    evalOp tvKindMro tvOpsWorld 2 4 (.node 5 (some (.node 2 none))) 42 =
      evalOp tvKindMro tvOpsWorld 2 3 (.node 2 none) 42 := by
  have hpre : ∀ k ∈ ([5] : List Nat), ∀ r ∈ (tvOpsWorld 2).mro,
      (tvOpsWorld r).mapping k = none := by
    intro k hk r hr
    rw [List.mem_singleton] at hk
    subst hk
    have hm : (tvOpsWorld 2).mro = [2, 1, 0] := rfl
    rw [hm] at hr
    rcases List.mem_cons.mp hr with rfl | hr
    · rfl
    rcases List.mem_cons.mp hr with rfl | hr
    · rfl
    rcases List.mem_cons.mp hr with rfl | hr
    · rfl
    simp at hr
  exact wrapper_pass_through_spec.1 Nat Nat tvKindMro tvOpsWorld 2 3 5
    (.node 2 none) 42 3 [5] [1, 0] rfl rfl hpre rfl

/-- **C5**: for the schema `{age: Int}` and the input
`{"age": 27, "color": "blue"}`: under 'save', dictify and undictify keep
`color` and validate raises nothing; under 'discard', dictify and
undictify drop `color` silently and validate raises `unexpected_fields`;
under 'error', undictify and validate raise `unexpected_fields` while
dictify drops `color` without raising. -/
theorem schema_mapping_policies_spec :
    (validate_mapping .save
        (.pdict [("age", .pint 27), ("color", .pstr "blue")]) = .ok ()) ∧
    (undictify_mapping .save
        (.pdict [("age", .pint 27), ("color", .pstr "blue")]) =
      .ok (.pdict [("age", .pint 27), ("color", .pstr "blue")])) ∧
    (dictify_mapping .save [("age", .pint 27), ("color", .pstr "blue")] =
      .pdict [("age", .pint 27), ("color", .pstr "blue")]) ∧
    (validate_mapping .discard
        (.pdict [("age", .pint 27), ("color", .pstr "blue")]) =
      .error ["unexpected_fields"]) ∧
    (undictify_mapping .discard
        (.pdict [("age", .pint 27), ("color", .pstr "blue")]) =
      .ok (.pdict [("age", .pint 27)])) ∧
    (dictify_mapping .discard [("age", .pint 27), ("color", .pstr "blue")] =
      .pdict [("age", .pint 27)]) ∧
    (validate_mapping .error
        (.pdict [("age", .pint 27), ("color", .pstr "blue")]) =
      .error ["unexpected_fields"]) ∧
    (undictify_mapping .error
        (.pdict [("age", .pint 27), ("color", .pstr "blue")]) =
      .error ["unexpected_fields"]) ∧
    (dictify_mapping .error [("age", .pint 27), ("color", .pstr "blue")] =
      .pdict [("age", .pint 27)]) :=
  ⟨rfl, rfl, rfl, rfl, rfl, rfl, rfl, rfl, rfl⟩

/-- **C6** (modelled from the spec; the implementation of
`default_value`/`default_factory` is not part of src/): a registered
default is delivered to the handler exactly when the caller did not
supply the argument; explicitly supplied arguments and other argument
names are unaffected; factory thunks are evaluated at delivery. -/
theorem default_args_spec :
    (∀ (V ρ ν' : Type) (handler : ν' → (String → Option V) → ρ)
        (ds : ArgDefaults V) (a : String) (val : V) (v : ν')
        (kwargs : List (String × V)),
        lookupK kwargs a = none →
        callWithDefaults handler (addDefaultValue ds a val) v kwargs =
          handler v (deliveredArg (addDefaultValue ds a val) kwargs) ∧
        deliveredArg (addDefaultValue ds a val) kwargs a = some val) ∧
    (∀ (V : Type) (ds : ArgDefaults V) (a : String) (thunk : Unit → V)
        (kwargs : List (String × V)),
        lookupK kwargs a = none →
        deliveredArg (addDefaultFactory ds a thunk) kwargs a =
          some (thunk ())) ∧
    (∀ (V : Type) (ds : ArgDefaults V) (a : String) (val x : V)
        (kwargs : List (String × V)),
        lookupK kwargs a = some x →
        deliveredArg (addDefaultValue ds a val) kwargs a = some x) ∧
    (∀ (V : Type) (ds : ArgDefaults V) (a b : String) (val : V)
        (kwargs : List (String × V)),
        b ≠ a →
        deliveredArg (addDefaultValue ds a val) kwargs b =
          deliveredArg ds kwargs b) := by
  refine ⟨?_, ?_, ?_, ?_⟩
  · intro V ρ ν' handler ds a val v kwargs hnone
    refine ⟨rfl, ?_⟩
    simp [deliveredArg, hnone, addDefaultValue]
  · intro V ds a thunk kwargs hnone
    simp [deliveredArg, hnone, addDefaultFactory]
  · intro V ds a val x kwargs hsome
    simp [deliveredArg, hsome]
  · intro V ds a b val kwargs hne
    simp only [deliveredArg, addDefaultValue, if_neg hne]

/-- Witness for C6: the scenario of `test_default_inheritance` — with the
default `x = 1` registered, a call that omits `x` delivers 1, a call that
passes `x = 4` delivers 4, and a factory default delivers the thunk's
value. -/
theorem default_args_spec_witness :
    deliveredArg (addDefaultValue (fun _ => none) "x" (1 : Nat)) [] "x" =
        some 1 ∧
      deliveredArg (addDefaultValue (fun _ => none) "x" (1 : Nat))
        [("x", 4)] "x" = some 4 ∧
      deliveredArg (addDefaultFactory (fun _ => none) "x"
        (fun _ => (2 : Nat))) [] "x" = some 2 := by
  refine ⟨?_, ?_, ?_⟩
  · exact (default_args_spec.1 Nat Nat Nat (fun _ _ => 0) (fun _ => none)
      "x" 1 0 [] rfl).2
  · exact default_args_spec.2.2.1 Nat (fun _ => none) "x" 1 4 [("x", 4)] rfl
  · exact default_args_spec.2.1 Nat (fun _ => none) "x" (fun _ => 2) [] rfl

theorem lookupK_append {A B : Type} [DecidableEq A] (l1 l2 : List (A × B)) (k : A) :
    lookupK (l1 ++ l2) k =
      match lookupK l1 k with
      | some v => some v
      | none => lookupK l2 k := by
  induction l1 with
  | nil => rfl
  | cons p rest ih =>
    obtain ⟨a, b⟩ := p
    by_cases h : a = k
    · simp [lookupK, h]
    · simp [lookupK, h, ih]

theorem lookupK_append_none {A B : Type} [DecidableEq A] {l1 : List (A × B)}
    {k : A} (h : lookupK l1 k = none) (v : B) :
    lookupK (l1 ++ [(k, v)]) k = some v := by
  rw [lookupK_append, h]
  simp [lookupK]

theorem getD_concat {γ : Type} (l : List γ) (x d : γ) :
    (l ++ [x]).getD l.length d = x := by
  induction l with
  | nil => rfl
  | cons a rest ih => simpa [List.getD_cons_succ] using ih

theorem getD_set_self {γ : Type} {l : List γ} {i : Nat} (h : i < l.length)
    (x d : γ) : (l.set i x).getD i d = x := by
  induction l generalizing i with
  | nil => simp at h
  | cons a rest ih =>
    cases i with
    | zero => rfl
    | succ n =>
      have hn : n < rest.length := by simpa using h
      simpa [List.getD_cons_succ] using ih hn

theorem lookupK_map_mem {A B : Type} [DecidableEq A] {l : List A} {f : A}
    (h : f ∈ l) (g : A → B) :
    lookupK (l.map fun k => (k, g k)) f = some (g f) := by
  induction l with
  | nil => simp at h
  | cons a rest ih =>
    by_cases hf : a = f
    · subst hf; simp [lookupK]
    · rcases List.mem_cons.mp h with rfl | h2
      · exact absurd rfl hf
      · simp [lookupK, hf, ih h2]

theorem get_or_create_idem (s : DocSetSt) (ty : Nat) (u : String) :
    get_or_create (get_or_create s ty u).2 ty u = get_or_create s ty u := by
  cases h : lookupK s.dmap (ty, u) with
  | some i => simp [get_or_create, h]
  | none =>
    have h2 : lookupK (s.dmap ++ [((ty, u), s.heap.length)]) (ty, u) =
        some s.heap.length := lookupK_append_none h _
    simp [get_or_create, h, h2]

theorem docset_load_after_create
    (types : Nat → DocType) (s : DocSetSt) (ty : Nat) (u : String)
    (raw : List (String × PVal))
    (hfresh : lookupK s.dmap (ty, u) = none)
    (huid : lookupK raw "uid" = some (.pstr u))
    (hstub : ¬(raw.length = 1 ∧ 1 < (types ty).fields.length))
    (hkeys : (raw.map Prod.fst).filter
      (fun k => decide (k ∉ (types ty).fields)) = []) :
    ∃ s2,
      docset_load types (get_or_create s ty u).2 ty raw false =
        .ok ((get_or_create s ty u).1, s2) ∧
      (heapGet s2 (get_or_create s ty u).1).loaded = true ∧
      (∀ f ∈ (types ty).fields, f ≠ "uid" →
          getAttrD (types ty) (heapGet s2 (get_or_create s ty u).1) f =
            .ok ((lookupK raw f).getD .pnone)) := by
  have hgc : get_or_create s ty u =
      (s.heap.length,
       ⟨s.dmap ++ [((ty, u), s.heap.length)],
        s.heap ++ [create_unloaded u]⟩) := by
    simp [get_or_create, hfresh]
  rw [hgc]
  have hl1 : lookupK (s.dmap ++ [((ty, u), s.heap.length)]) (ty, u) =
      some s.heap.length := lookupK_append_none hfresh _
  have hph : heapGet ⟨s.dmap ++ [((ty, u), s.heap.length)],
      s.heap ++ [create_unloaded u]⟩ s.heap.length = create_unloaded u := by
    simp only [heapGet]
    exact getD_concat s.heap _ _
  have hattrsfst : (((types ty).fields.map
      (fun k => (k, (lookupK raw k).getD .pnone))).map Prod.fst).all
        (fun k => decide (k ∈ (types ty).fields)) = true := by
    rw [List.all_eq_true]
    intro k hk
    simp only [List.map_map, List.mem_map] at hk
    obtain ⟨k', hk', rfl⟩ := hk
    exact decide_eq_true hk'
  have hdl : doc_load (types ty) (create_unloaded u)
      ((types ty).fields.map (fun k => (k, (lookupK raw k).getD .pnone))) =
      .ok { uid := u, loaded := true,
            attrs := ((types ty).fields.filter (fun k => decide (k ≠ "uid"))).map
              (fun k => (k, (lookupK
                ((types ty).fields.map (fun k' => (k', (lookupK raw k').getD .pnone)))
                k).getD .pnone)) } := by
    rw [doc_load, if_neg (by simp [create_unloaded]), doc_load_raw,
      if_pos hattrsfst]
    rfl
  have hudf : udf_document types ty
      ⟨s.dmap ++ [((ty, u), s.heap.length)], s.heap ++ [create_unloaded u]⟩
      raw true =
      .ok (s.heap.length,
        ⟨s.dmap ++ [((ty, u), s.heap.length)],
         (s.heap ++ [create_unloaded u]).set s.heap.length
           { uid := u, loaded := true,
             attrs := ((types ty).fields.filter (fun k => decide (k ≠ "uid"))).map
               (fun k => (k, (lookupK
                 ((types ty).fields.map (fun k' => (k', (lookupK raw k').getD .pnone)))
                 k).getD .pnone)) }⟩) := by
    rw [udf_document, if_neg (by simp [huid]), huid]
    simp only [get_or_create, hl1]
    rw [if_neg hstub]
    rw [hkeys]
    rw [if_neg (by simp)]
    rw [hph, hdl]
  refine ⟨⟨s.dmap ++ [((ty, u), s.heap.length)],
      (s.heap ++ [create_unloaded u]).set s.heap.length
        { uid := u, loaded := true,
          attrs := ((types ty).fields.filter (fun k => decide (k ≠ "uid"))).map
            (fun k => (k, (lookupK
              ((types ty).fields.map (fun k' => (k', (lookupK raw k').getD .pnone)))
              k).getD .pnone)) }⟩, ?_, ?_, ?_⟩
  · simp only [docset_load]
    rw [huid]
    simp only [hl1]
    rw [hph]
    rw [if_neg (by simp [create_unloaded])]
    exact hudf
  · have hlen : s.heap.length < ((s.heap ++ [create_unloaded u])).length := by
      simp
    rw [show heapGet ⟨s.dmap ++ [((ty, u), s.heap.length)],
        (s.heap ++ [create_unloaded u]).set s.heap.length
          { uid := u, loaded := true,
            attrs := ((types ty).fields.filter (fun k => decide (k ≠ "uid"))).map
              (fun k => (k, (lookupK
                ((types ty).fields.map (fun k' => (k', (lookupK raw k').getD .pnone)))
                k).getD .pnone)) }⟩ s.heap.length =
        { uid := u, loaded := true,
          attrs := ((types ty).fields.filter (fun k => decide (k ≠ "uid"))).map
            (fun k => (k, (lookupK
              ((types ty).fields.map (fun k' => (k', (lookupK raw k').getD .pnone)))
              k).getD .pnone)) }
      from getD_set_self hlen _ _]
  · intro f hf hne
    have hlen : s.heap.length < ((s.heap ++ [create_unloaded u])).length := by
      simp
    rw [show heapGet ⟨s.dmap ++ [((ty, u), s.heap.length)],
        (s.heap ++ [create_unloaded u]).set s.heap.length
          { uid := u, loaded := true,
            attrs := ((types ty).fields.filter (fun k => decide (k ≠ "uid"))).map
              (fun k => (k, (lookupK
                ((types ty).fields.map (fun k' => (k', (lookupK raw k').getD .pnone)))
                k).getD .pnone)) }⟩ s.heap.length =
        { uid := u, loaded := true,
          attrs := ((types ty).fields.filter (fun k => decide (k ≠ "uid"))).map
            (fun k => (k, (lookupK
              ((types ty).fields.map (fun k' => (k', (lookupK raw k').getD .pnone)))
              k).getD .pnone)) }
      from getD_set_self hlen _ _]
    have hfin : f ∈ (types ty).fields.filter (fun k => decide (k ≠ "uid")) :=
      List.mem_filter.mpr ⟨hf, decide_eq_true hne⟩
    have h1 : lookupK
        (((types ty).fields.filter (fun k => decide (k ≠ "uid"))).map
          (fun k => (k, (lookupK
            ((types ty).fields.map (fun k' => (k', (lookupK raw k').getD .pnone)))
            k).getD .pnone))) f =
        some ((lookupK
          ((types ty).fields.map (fun k' => (k', (lookupK raw k').getD .pnone)))
          f).getD .pnone) :=
      lookupK_map_mem hfin _
    have h2 : lookupK
        ((types ty).fields.map (fun k' => (k', (lookupK raw k').getD .pnone))) f =
        some ((lookupK raw f).getD .pnone) :=
      lookupK_map_mem hf _
    simp only [decide_not] at h1
    simp [getAttrD, if_neg hne, h1, h2]

/-- **C7**: `get_or_create` is idempotent (repeated calls return the same
heap slot and leave the docset unchanged); when a placeholder is created
first and `load` runs later with raw data naming the same uid, the load
populates and returns that same slot; before the load only `uid` is
readable and every other declared field raises the unloaded-access error,
after the load the declared fields read back the raw values. -/
theorem docset_wiring_spec :
    (∀ (s : DocSetSt) (ty : Nat) (u : String),
        get_or_create (get_or_create s ty u).2 ty u = get_or_create s ty u) ∧
    (∀ (types : Nat → DocType) (s : DocSetSt) (ty : Nat) (u : String)
        (raw : List (String × PVal)),
        lookupK s.dmap (ty, u) = none →
        lookupK raw "uid" = some (.pstr u) →
        ¬(raw.length = 1 ∧ 1 < (types ty).fields.length) →
        (raw.map Prod.fst).filter (fun k => decide (k ∉ (types ty).fields)) = [] →
        (getAttrD (types ty)
            (heapGet (get_or_create s ty u).2 (get_or_create s ty u).1) "uid" =
          .ok (.pstr u)) ∧
        (∀ f ∈ (types ty).fields, f ≠ "uid" →
            getAttrD (types ty)
              (heapGet (get_or_create s ty u).2 (get_or_create s ty u).1) f =
              .error "unloaded_access") ∧
        (∃ s2, docset_load types (get_or_create s ty u).2 ty raw false =
            .ok ((get_or_create s ty u).1, s2) ∧
          (heapGet s2 (get_or_create s ty u).1).loaded = true ∧
          (∀ f ∈ (types ty).fields, f ≠ "uid" →
              getAttrD (types ty) (heapGet s2 (get_or_create s ty u).1) f =
                .ok ((lookupK raw f).getD .pnone)))) := by
  refine ⟨get_or_create_idem, ?_⟩
  intro types s ty u raw hfresh huid hstub hkeys
  have hgc : get_or_create s ty u =
      (s.heap.length,
       ⟨s.dmap ++ [((ty, u), s.heap.length)],
        s.heap ++ [create_unloaded u]⟩) := by
    simp [get_or_create, hfresh]
  have hph : heapGet (get_or_create s ty u).2 (get_or_create s ty u).1 =
      create_unloaded u := by
    rw [hgc]
    simp only [heapGet]
    exact getD_concat s.heap _ _
  refine ⟨?_, ?_, docset_load_after_create types s ty u raw hfresh huid hstub hkeys⟩
  · rw [hph]; rfl
  · intro f hf hne
    rw [hph]
    simp [getAttrD, create_unloaded, lookupK, hne, hf]

/-- Witness for C7: the docstring scenario of docset.py — a `Note` type
with fields uid and content, `get_or_create` then `load`. -/
theorem docset_wiring_spec_witness :
    (getAttrD ⟨["uid", "content"]⟩
        (heapGet (get_or_create ⟨[], []⟩ 0 "some_uid").2
          (get_or_create ⟨[], []⟩ 0 "some_uid").1) "uid" =
      .ok (.pstr "some_uid")) ∧
    (∀ f ∈ (["uid", "content"] : List String), f ≠ "uid" →
        getAttrD ⟨["uid", "content"]⟩
          (heapGet (get_or_create ⟨[], []⟩ 0 "some_uid").2
            (get_or_create ⟨[], []⟩ 0 "some_uid").1) f =
          .error "unloaded_access") ∧
    (∃ s2, docset_load (fun _ => ⟨["uid", "content"]⟩)
        (get_or_create ⟨[], []⟩ 0 "some_uid").2 0
        [("uid", .pstr "some_uid"), ("content", .pstr "Lorem ipsum etc.")]
        false =
        .ok ((get_or_create ⟨[], []⟩ 0 "some_uid").1, s2) ∧
      (heapGet s2 (get_or_create ⟨[], []⟩ 0 "some_uid").1).loaded = true ∧
      (∀ f ∈ (["uid", "content"] : List String), f ≠ "uid" →
          getAttrD ⟨["uid", "content"]⟩
            (heapGet s2 (get_or_create ⟨[], []⟩ 0 "some_uid").1) f =
            .ok ((lookupK
              [("uid", PVal.pstr "some_uid"),
               ("content", PVal.pstr "Lorem ipsum etc.")] f).getD .pnone))) :=
  docset_wiring_spec.2 (fun _ => ⟨["uid", "content"]⟩) ⟨[], []⟩ 0 "some_uid"
    [("uid", .pstr "some_uid"), ("content", .pstr "Lorem ipsum etc.")]
    rfl rfl (by simp) (by decide)

/-- **C8**: loading raw data whose uid names an already-loaded document
fails with the double-load error when `allow_double_load` is false, and
returns the existing loaded instance with the docset unchanged (raw data
discarded) when it is true; `Document.load` on an already-loaded instance
raises the double-load error. -/
theorem double_load_spec :
    (∀ (types : Nat → DocType) (s : DocSetSt) (ty : Nat) (u : String)
        (i : Nat) (raw : List (String × PVal)),
        lookupK raw "uid" = some (.pstr u) →
        lookupK s.dmap (ty, u) = some i →
        (heapGet s i).loaded = true →
        docset_load types s ty raw false = .error "double_load" ∧
        docset_load types s ty raw true = .ok (i, s)) ∧
    (∀ (T : DocType) (d : DocObj) (attrs : List (String × PVal)),
        d.loaded = true → doc_load T d attrs = .error "double_load") := by
  constructor
  · intro types s ty u i raw huid hl hload
    constructor
    · simp only [docset_load]
      rw [huid]
      simp only [hl]
      rw [if_pos hload]
      rfl
    · simp only [docset_load]
      rw [huid]
      simp only [hl]
      rw [if_pos hload]
      simp
  · intro T d attrs h
    simp [doc_load, h]

/-- Witness for C8: a docset holding one loaded document under
(type 0, uid "x"). -/
theorem double_load_spec_witness :
    (docset_load (fun _ => ⟨["uid"]⟩)
        ⟨[((0, "x"), 0)], [⟨"x", true, []⟩]⟩ 0
        [("uid", .pstr "x")] false = .error "double_load" ∧
      docset_load (fun _ => ⟨["uid"]⟩)
        ⟨[((0, "x"), 0)], [⟨"x", true, []⟩]⟩ 0
        [("uid", .pstr "x")] true =
        .ok (0, ⟨[((0, "x"), 0)], [⟨"x", true, []⟩]⟩)) ∧
    doc_load ⟨["uid"]⟩ ⟨"x", true, []⟩ [] = .error "double_load" :=
  ⟨double_load_spec.1 (fun _ => ⟨["uid"]⟩)
      ⟨[((0, "x"), 0)], [⟨"x", true, []⟩]⟩ 0 "x" 0
      [("uid", .pstr "x")] rfl rfl rfl,
   double_load_spec.2 ⟨["uid"]⟩ ⟨"x", true, []⟩ [] rfl⟩

/-- **C10**: undictifying the bare stub `{"uid": u}` for a document type
with more than one declared field, against a docset holding no loaded
document for (type, u), returns the docset's existing-or-new placeholder
without loading it and without error: the result is exactly
`get_or_create`'s, and the returned document is unloaded. -/
theorem udf_document_stub_spec :
    ∀ (types : Nat → DocType) (ty : Nat) (s : DocSetSt) (u : String),
      1 < (types ty).fields.length →
      (∀ i, lookupK s.dmap (ty, u) = some i → (heapGet s i).loaded = false) →
      udf_document types ty s [("uid", .pstr u)] true =
          .ok (get_or_create s ty u) ∧
      (heapGet (get_or_create s ty u).2 (get_or_create s ty u).1).loaded =
        false := by
  intro types ty s u hfields hunl
  constructor
  · rw [udf_document]
    rw [if_neg (by simp [lookupK])]
    have hluid : lookupK [("uid", PVal.pstr u)] "uid" = some (.pstr u) := by
      simp [lookupK]
    simp only [hluid]
    rw [if_pos ⟨rfl, hfields⟩]
  · cases hl : lookupK s.dmap (ty, u) with
    | some i =>
      have := hunl i hl
      simp [get_or_create, hl, this]
    | none =>
      simp only [get_or_create, hl, heapGet]
      rw [getD_concat]
      rfl

/-- Witness for C10: a two-field document type and an empty docset. -/
theorem udf_document_stub_spec_witness :
    udf_document (fun _ => ⟨["uid", "content"]⟩) 0 ⟨[], []⟩
        [("uid", .pstr "x")] true =
        .ok (get_or_create ⟨[], []⟩ 0 "x") ∧
      (heapGet (get_or_create ⟨[], []⟩ 0 "x").2
        (get_or_create ⟨[], []⟩ 0 "x").1).loaded = false :=
  udf_document_stub_spec (fun _ => ⟨["uid", "content"]⟩) 0 ⟨[], []⟩ "x"
    (by decide) (fun i h => by simp [lookupK] at h)

theorem okScan_append (l1 l2 : List (Nat × Bool)) (seen : Finset Nat) :
    okScan seen (l1 ++ l2) =
      (okScan seen l1 && okScan (scanEnd seen l1) l2) := by
  induction l1 generalizing seen with
  | nil => simp [okScan, scanEnd]
  | cons a rest ih =>
    obtain ⟨u, b⟩ := a
    cases b with
    | true =>
      simp only [List.cons_append, okScan, scanEnd, List.append_eq, ih,
        Bool.and_assoc]
    | false =>
      simp only [List.cons_append, okScan, scanEnd, List.append_eq, ih,
        Bool.and_assoc]

theorem scanEnd_append (l1 l2 : List (Nat × Bool)) (seen : Finset Nat) :
    scanEnd seen (l1 ++ l2) = scanEnd (scanEnd seen l1) l2 := by
  induction l1 generalizing seen with
  | nil => rfl
  | cons a rest ih =>
    obtain ⟨u, b⟩ := a
    cases b with
    | true => simp only [List.cons_append, scanEnd, List.append_eq, ih]
    | false => simp only [List.cons_append, scanEnd, List.append_eq, ih]

theorem dictify_scan (refs : Nat → List Nat) :
    ∀ (fuel : Nat) (p : Finset Nat) (d : Nat) (v : DVal) (p' : Finset Nat),
      dictifyDoc refs fuel p d = some (v, p') →
      okScan p (occs v) = true ∧ p' = scanEnd p (occs v) := by
  intro fuel
  induction fuel with
  | zero =>
    intro p d v p' h
    rw [dictifyDoc] at h
    by_cases hd : d ∈ p
    · rw [if_pos hd] at h
      simp only [Option.some.injEq, Prod.mk.injEq] at h
      obtain ⟨rfl, rfl⟩ := h
      simp [occs, okScan, scanEnd, hd]
    · rw [if_neg hd] at h
      cases h
  | succ f ih =>
    intro p d v p' h
    rw [dictifyDoc] at h
    by_cases hd : d ∈ p
    · rw [if_pos hd] at h
      simp only [Option.some.injEq, Prod.mk.injEq] at h
      obtain ⟨rfl, rfl⟩ := h
      simp [occs, okScan, scanEnd, hd]
    · rw [if_neg hd] at h
      have hlist : ∀ (l : List Nat) (p1 : Finset Nat) (vs : List DVal)
          (p2 : Finset Nat),
          dictifyList (dictifyDoc refs f) p1 l = some (vs, p2) →
          okScan p1 (occsList vs) = true ∧ p2 = scanEnd p1 (occsList vs) := by
        intro l
        induction l with
        | nil =>
          intro p1 vs p2 hh
          rw [dictifyList] at hh
          simp only [Option.some.injEq, Prod.mk.injEq] at hh
          obtain ⟨rfl, rfl⟩ := hh
          simp [occsList, okScan, scanEnd]
        | cons c rest ihl =>
          intro p1 vs p2 hh
          rw [dictifyList] at hh
          cases h1 : dictifyDoc refs f p1 c with
          | none => simp only [h1] at hh; exact Option.noConfusion hh
          | some vp =>
            obtain ⟨v1, pm⟩ := vp
            simp only [h1] at hh
            cases h2 : dictifyList (dictifyDoc refs f) pm rest with
            | none => simp only [h2] at hh; exact Option.noConfusion hh
            | some vsp =>
              obtain ⟨vs2, p3⟩ := vsp
              simp only [h2, Option.some.injEq, Prod.mk.injEq] at hh
              obtain ⟨rfl, rfl⟩ := hh
              obtain ⟨hsc1, hpe1⟩ := ih p1 c v1 pm h1
              obtain ⟨hsc2, hpe2⟩ := ihl pm vs2 p3 h2
              constructor
              · rw [occsList, okScan_append, hsc1, ← hpe1, hsc2]
                rfl
              · rw [occsList, scanEnd_append, ← hpe1, hpe2]
      cases hls : dictifyList (dictifyDoc refs f) (insert d p) (refs d) with
      | none => simp only [hls] at h; exact Option.noConfusion h
      | some csp =>
        obtain ⟨cs, p2⟩ := csp
        simp only [hls, Option.some.injEq, Prod.mk.injEq] at h
        obtain ⟨rfl, rfl⟩ := h
        obtain ⟨hsc, hpe⟩ := hlist (refs d) (insert d p) cs p2 hls
        constructor
        · rw [occs, okScan, hsc]
          simp [hd]
        · rw [occs, scanEnd, hpe]

theorem dictify_total (n : Nat) (refs : Nat → List Nat)
    (href : ∀ d, ∀ c ∈ refs d, c < n) :
    ∀ (fuel : Nat) (p : Finset Nat) (d : Nat), d < n →
      p ⊆ Finset.range n → n - p.card ≤ fuel →
      ∃ v p', dictifyDoc refs fuel p d = some (v, p') ∧ p ⊆ p' ∧
        p' ⊆ Finset.range n := by
  intro fuel
  induction fuel with
  | zero =>
    intro p d hd hp hc
    by_cases hmem : d ∈ p
    · exact ⟨.stub d, p, by rw [dictifyDoc, if_pos hmem],
        Finset.Subset.refl _, hp⟩
    · exfalso
      have hcard : (Finset.range n).card ≤ p.card := by
        simp only [Finset.card_range]
        omega
      have hpr : p = Finset.range n := Finset.eq_of_subset_of_card_le hp hcard
      exact hmem (hpr ▸ Finset.mem_range.mpr hd)
  | succ f ih =>
    intro p d hd hp hc
    by_cases hmem : d ∈ p
    · exact ⟨.stub d, p, by rw [dictifyDoc, if_pos hmem],
        Finset.Subset.refl _, hp⟩
    · have hlist : ∀ (l : List Nat) (p1 : Finset Nat),
          (∀ c ∈ l, c < n) → p1 ⊆ Finset.range n → n - p1.card ≤ f →
          ∃ vs p2, dictifyList (dictifyDoc refs f) p1 l = some (vs, p2) ∧
            p1 ⊆ p2 ∧ p2 ⊆ Finset.range n := by
        intro l
        induction l with
        | nil =>
          intro p1 _ hp1 _
          exact ⟨[], p1, rfl, Finset.Subset.refl _, hp1⟩
        | cons c rest ihl =>
          intro p1 hcl hp1 hc1
          obtain ⟨v1, pm, he1, hs1, hr1⟩ :=
            ih p1 c (hcl c (List.mem_cons_self _ _)) hp1 hc1
          have hc2 : n - pm.card ≤ f := by
            have := Finset.card_le_card hs1
            omega
          obtain ⟨vs2, p3, he2, hs2, hr2⟩ :=
            ihl pm (fun c' hc' => hcl c' (List.mem_cons_of_mem _ hc')) hr1 hc2
          exact ⟨v1 :: vs2, p3, by rw [dictifyList]; simp only [he1, he2],
            hs1.trans hs2, hr2⟩
      have hin : insert d p ⊆ Finset.range n :=
        Finset.insert_subset (Finset.mem_range.mpr hd) hp
      have hcard : n - (insert d p).card ≤ f := by
        rw [Finset.card_insert_of_not_mem hmem]
        omega
      obtain ⟨cs, p2, he, hs, hr⟩ :=
        hlist (refs d) (insert d p) (href d) hin hcard
      refine ⟨.full d cs, p2, ?_, ?_, hr⟩
      · rw [dictifyDoc, if_neg hmem, he]
      · exact (Finset.subset_insert _ _).trans hs

/-- **C4**: within one dictify call, the serialized output scans
correctly — every document's first occurrence is its full form and every
later occurrence of the same document is its key-only stub; the call
terminates on any finite document graph (fuel equal to the number of
documents suffices); and for two documents referencing each other,
`serialize(A)` yields `full A [full B [stub A]]` — exactly one of the pair
fully nested, the back-reference collapsed to the key stub. -/
theorem dictify_document_cycle_spec :
    (∀ (refs : Nat → List Nat) (fuel : Nat) (p : Finset Nat) (d : Nat)
        (v : DVal) (p' : Finset Nat),
        dictifyDoc refs fuel p d = some (v, p') →
        okScan p (occs v) = true) ∧
    (∀ (n : Nat) (refs : Nat → List Nat),
        (∀ d, ∀ c ∈ refs d, c < n) → ∀ d, d < n →
        ∃ v p', dictifyDoc refs n ∅ d = some (v, p')) ∧
    dictifyDoc refs2 2 ∅ 0 =
      some (.full 0 [.full 1 [.stub 0]], insert 1 (insert 0 ∅)) := by
  refine ⟨?_, ?_, ?_⟩
  · intro refs fuel p d v p' h
    exact (dictify_scan refs fuel p d v p' h).1
  · intro n refs href d hd
    obtain ⟨v, p', he, _, _⟩ :=
      dictify_total n refs href n ∅ d hd (by simp) (by simp)
    exact ⟨v, p', he⟩
  · rfl

/-- Witness for C4: the mutual-reference pair — serialization from
document 0 succeeds and its output passes the first-full/later-stub
scan. -/
theorem dictify_document_cycle_spec_witness :
    okScan ∅ (occs (.full 0 [.full 1 [.stub 0]])) = true ∧
      (∃ v p', dictifyDoc refs2 2 ∅ 0 = some (v, p')) := by
  constructor
  · exact dictify_document_cycle_spec.1 refs2 2 ∅ 0 _ _ rfl
  · have href : ∀ d, ∀ c ∈ refs2 d, c < 2 := by
      intro d c hc
      by_cases h0 : d = 0
      · subst h0
        simp [refs2] at hc
        omega
      · by_cases h1 : d = 1
        · subst h1
          simp [refs2] at hc
          omega
        · simp [refs2, h0, h1] at hc
    exact dictify_document_cycle_spec.2.1 2 refs2 href 0 (by decide)
